import Mathlib

set_option linter.unusedVariables false

/-!
Shallow embedding of the `times-tables` / `austimes-tables` core:
identifier generation (`ids.py`), value normalization (`extract.py`),
deterministic row sorting (`sorting.py`), the index diff (`commands/diff.py`),
table boundary detection and table reading (`excel.py`, `scanner.py`),
and the atomic index write (`index.py`).

Cell values are modelled as `Option String` (`none` = empty cell / null,
`some s` = the `str(...)` rendering of the cell value).  Python `str.strip`,
`str.lower` and `str.upper` are modelled on the underlying character lists
(`lower`/`upper` in their ASCII behaviour).
-/

/-! ### Python string primitives -/

/-- Python `str.strip()` on the left: drop leading whitespace characters. -/
def stripLeftL (l : List Char) : List Char :=
  l.dropWhile Char.isWhitespace

/-- Python `str.strip()` on the right: drop trailing whitespace characters. -/
def stripRightL (l : List Char) : List Char :=
  (l.reverse.dropWhile Char.isWhitespace).reverse

/-- Python `str.strip()` : drop leading and trailing whitespace. -/
def pyStripL (l : List Char) : List Char :=
  stripRightL (stripLeftL l)

/-- Python `str.strip()` lifted to `String`. -/
def pyStrip (s : String) : String :=
  ⟨pyStripL s.data⟩

/-- Python `str.upper()` (ASCII behaviour, as relevant to the tag types used). -/
def pyUpper (s : String) : String :=
  ⟨s.data.map Char.toUpper⟩

/-- Python `str.lower()` (ASCII behaviour). -/
def pyLower (s : String) : String :=
  ⟨s.data.map Char.toLower⟩

/-- Regex `\s+` collapse: replace every run of whitespace by a single space.
`prevSpace` records whether the previous character was part of a run. -/
def collapseWsAux : Bool → List Char → List Char
  | _, [] => []
  | prevSpace, c :: cs =>
    if c.isWhitespace then
      if prevSpace then collapseWsAux true cs
      else ' ' :: collapseWsAux true cs
    else c :: collapseWsAux false cs

/-- `re.sub(r"\s+", " ", name)`. -/
def collapseWs (l : List Char) : List Char :=
  collapseWsAux false l

/-! ### `austimes_tables/ids.py` -/

/-- Characters kept verbatim by the final `re.sub(r"[^a-z0-9_]", "_", name)`. -/
def keptChar (c : Char) : Bool :=
  ('a' ≤ c && c ≤ 'z') || ('0' ≤ c && c ≤ '9') || c = '_'

/-- `austimes_tables/ids.py` `_normalize_name`: strip, lowercase, collapse
whitespace runs to one space, spaces to underscores, and any character
outside `[a-z0-9_]` to an underscore. -/
def normalize_name (name : String) : String :=
  let l1 := pyStripL name.data
  let l2 := l1.map Char.toLower
  let l3 := collapseWs l2
  let l4 := l3.map (fun c => if c = ' ' then '_' else c)
  let l5 := l4.map (fun c => if keptChar c then c else '_')
  ⟨l5⟩

/-- `austimes_tables/ids.py` `generate_table_id`.  The Python truthiness test
`if logical_name:` is false both for `None` and for the empty string. -/
def generate_table_id (tag_type : String) (logical_name : Option String)
    (workbook_id : String) (sheet_name : String) (tag_position : String) : String :=
  let tag_upper := pyUpper tag_type
  let sheet_safe := normalize_name sheet_name
  match logical_name with
  | some l =>
    if l ≠ "" then
      workbook_id ++ "__" ++ sheet_safe ++ "__" ++ tag_upper ++ "__" ++ normalize_name l
    else
      workbook_id ++ "__" ++ sheet_safe ++ "__" ++ tag_upper
  | none => workbook_id ++ "__" ++ sheet_safe ++ "__" ++ tag_upper

/-! ### DataFrames and `times_tables/extract.py` value normalization -/

/-- In-memory table: the column labels and the rows (one cell list per row).
Cells are `none` (null) or the string rendering of the value. -/
structure DataFrame where
  columns : List String
  rows : List (List (Option String))
deriving DecidableEq

/-- One cell of `_normalize_values`: nulls stay null, other values are
converted to their string form and stripped, and empty strings become null. -/
def normalizeCell : Option String → Option String
  | none => none
  | some s => if pyStrip s = "" then none else some (pyStrip s)

/-- `times_tables/extract.py` `_normalize_values` (the per-column vectorized
operations act cell-wise). -/
def normalize_values (df : DataFrame) : DataFrame :=
  ⟨df.columns, df.rows.map (fun row => row.map normalizeCell)⟩

/-! ### `austimes_tables/sorting.py` -/

/-- Key coercion applied to a primary-key column before sorting:
`astype(str).replace("nan", pd.NA).replace("<NA>", pd.NA)`.  A null renders as
the string `"nan"` and is put back to missing; a literal `"nan"` or `"<NA>"`
string is likewise turned into missing. -/
def coerceKeyCell : Option String → Option String
  | none => none
  | some s => if s = "nan" ∨ s = "<NA>" then none else some s

/-- Apply `coerceKeyCell` to the cells of the primary-key columns of a row. -/
def transformRow (cols vpks : List String) (row : List (Option String)) :
    List (Option String) :=
  List.zipWith (fun c v => if vpks.contains c then coerceKeyCell v else v) cols row

/-- `fillna("")` on one cell. -/
def fillCell : Option String → Option String
  | none => some ""
  | some s => some s

/-- The post-sort `df_sorted[pk] = df_sorted[pk].fillna("")` pass on a row. -/
def fillRow (cols vpks : List String) (row : List (Option String)) :
    List (Option String) :=
  List.zipWith (fun c v => if vpks.contains c then fillCell v else v) cols row

/-- The cell of `row` in the column labelled `c` (first occurrence). -/
def cellAt (cols : List String) (row : List (Option String)) (c : String) :
    Option String :=
  row.getD (cols.findIdx (fun x => x == c)) none

/-- The sort key of a row: the tuple of its primary-key column values. -/
def rowKey (cols vpks : List String) (row : List (Option String)) :
    List (Option String) :=
  vpks.map (cellAt cols row)

/-- Python string `<`: code-point lexicographic comparison of the character
lists (case-sensitive; uppercase letters sort before lowercase ones since
their code points are smaller). -/
def strLtL : List Char → List Char → Bool
  | [], [] => false
  | [], _ :: _ => true
  | _ :: _, [] => false
  | a :: as, b :: bs =>
    if a.toNat < b.toNat then true
    else if b.toNat < a.toNat then false
    else strLtL as bs

/-- Python string `<` lifted to `String`. -/
def strLt (a b : String) : Bool :=
  strLtL a.data b.data

/-- Python string `<=` (total order): `a <= b  ↔  ¬ b < a`. -/
def strLeP (a b : String) : Prop :=
  strLt b a = false

instance : DecidableRel strLeP := fun a b => instDecidableEqBool _ _

/-- Strict comparison of key components: missing values (`none`) sort after
every present string; strings compare code-point lexicographically. -/
def cellLt : Option String → Option String → Bool
  | none, _ => false
  | some _, none => true
  | some a, some b => strLt a b

/-- Lexicographic tuple comparison with `cellLt` on components
(`na_position="last"` applied per key column). -/
def keyLe : List (Option String) → List (Option String) → Bool
  | [], _ => true
  | _ :: _, [] => false
  | a :: as, b :: bs => cellLt a b || (a == b && keyLe as bs)

/-- Row comparison by sort key. -/
def rowLe (cols vpks : List String) (r1 r2 : List (Option String)) : Prop :=
  keyLe (rowKey cols vpks r1) (rowKey cols vpks r2) = true

instance (cols vpks : List String) : DecidableRel (rowLe cols vpks) :=
  fun r1 r2 => instDecidableEqBool _ _

/-- `austimes_tables/sorting.py` `sort_by_primary_keys`: empty frames and empty
key lists are returned unchanged; the declared keys are filtered to those
present in the columns; if none is present the frame is returned unsorted;
otherwise the key columns are string-coerced, the rows stably sorted by the
key tuple (nulls last per component), and nulls in key columns filled with
the empty string. -/
def sort_by_primary_keys (df : DataFrame) (pks : List String) : DataFrame :=
  if df.rows.isEmpty then df
  else if pks.isEmpty then df
  else
    let vpks := pks.filter (fun pk => df.columns.contains pk)
    if vpks.isEmpty then df
    else
      let transformed := df.rows.map (transformRow df.columns vpks)
      let sorted := List.insertionSort (rowLe df.columns vpks) transformed
      ⟨df.columns, sorted.map (fillRow df.columns vpks)⟩

/-- Whether `sort_by_primary_keys` logs the missing-primary-keys warning:
only on the branch where at least one declared key is present and at least
one is missing. -/
def sort_warns (df : DataFrame) (pks : List String) : Bool :=
  if df.rows.isEmpty then false
  else if pks.isEmpty then false
  else
    let vpks := pks.filter (fun pk => df.columns.contains pk)
    if vpks.isEmpty then false
    else pks.any (fun pk => !df.columns.contains pk)

/-- The key the specification describes: the literal string forms of the
primary-key cells, with no `"nan"`/`"<NA>"` remapping. -/
def rowKeyLiteral (cols pks : List String) (row : List (Option String)) :
    List (Option String) :=
  pks.map (cellAt cols row)

/-! ### `austimes_tables/commands/diff.py` -/

/-- Per-table metadata consulted by the diff.

Modelled from the spec: `austimes_tables/models.py` is not under `src/`; the
spec's `TableMeta` carries `row_count` and the content hash (`csv_sha256`),
which are the only fields `_compute_diff` reads. -/
structure TableEntry where
  row_count : Nat
  csv_sha256 : String
deriving DecidableEq

/-- The index aggregate consulted by the diff.

Modelled from the spec: `austimes_tables/models.py` is not under `src/`; the
spec's Index holds `tables: map[composite_key → TableMeta]`, modelled as an
association list with (by the Python `dict` invariant) no duplicate keys. -/
structure TablesIndex where
  tables : List (String × TableEntry)
deriving DecidableEq

/-- The key set of an index (`index.tables.keys()`). -/
def indexKeys (t : TablesIndex) : List String :=
  t.tables.map Prod.fst

/-- `index.tables[k].csv_sha256`, as an `Option` for absent keys. -/
def lookupHash (t : TablesIndex) (k : String) : Option String :=
  (t.tables.lookup k).map TableEntry.csv_sha256

/-- `index.tables[k].row_count`, as an `Option` for absent keys. -/
def lookupRows (t : TablesIndex) (k : String) : Option Nat :=
  (t.tables.lookup k).map TableEntry.row_count

/-- One record of the `tables_modified` list. -/
structure ModifiedEntry where
  table_id : String
  row_count_a : Option Nat
  row_count_b : Option Nat
  hash_a : Option String
  hash_b : Option String
deriving DecidableEq

/-- The structured diff output (paths and timestamp omitted). -/
structure DiffResult where
  tables_added : List String
  tables_removed : List String
  tables_modified : List ModifiedEntry
  unchanged : List String
  total_tables_a : Nat
  total_tables_b : Nat
  summary_added : Nat
  summary_removed : Nat
  summary_modified : Nat
  summary_unchanged : Nat
deriving DecidableEq

/-- Python `sorted(...)` on strings: ascending code-point lexicographic
order, realized by a stable sort. -/
def sortStrings (l : List String) : List String :=
  List.insertionSort strLeP l

/-- `austimes_tables/commands/diff.py` `_compute_diff`: set differences of the
key sets, sorted; the sorted common keys are split into modified (hash
differs) and unchanged (the loop appending to two lists in order is embedded
as two filters of the sorted common list). -/
def compute_diff (a b : TablesIndex) : DiffResult :=
  let keysA := indexKeys a
  let keysB := indexKeys b
  let added := sortStrings (keysB.filter (fun k => !keysA.contains k))
  let removed := sortStrings (keysA.filter (fun k => !keysB.contains k))
  let common := sortStrings (keysA.filter (fun k => keysB.contains k))
  let modifiedKeys := common.filter (fun k => !(lookupHash a k == lookupHash b k))
  let modified := modifiedKeys.map
    (fun k => ⟨k, lookupRows a k, lookupRows b k, lookupHash a k, lookupHash b k⟩)
  let unchanged := common.filter (fun k => lookupHash a k == lookupHash b k)
  ⟨added, removed, modified, unchanged, keysA.length, keysB.length,
    added.length, removed.length, modified.length, unchanged.length⟩

/-! ### `times_tables/excel.py` and `times_tables/scanner.py` -/

/-- The cell-grid abstraction over one worksheet (1-based coordinates;
cells outside the used range read as `none`). -/
structure Grid where
  maxRow : Nat
  maxCol : Nat
  cell : Nat → Nat → Option String

/-- `val is not None and str(val).strip() != ""`. -/
def isFilled (g : Grid) (r c : Nat) : Bool :=
  match g.cell r c with
  | none => false
  | some s => !(pyStrip s == "")

/-- First column of the candidate list whose header-row cell is non-empty
(the rightward anchor search of `detect_table_bounds`). -/
def findFirstFilled (g : Grid) (hr : Nat) : List Nat → Option Nat
  | [] => none
  | c :: cs => if isFilled g hr c then some c else findFirstFilled g hr cs

/-- The leftward expansion loop: from `curr`, step left while the header cell
one column further left is non-empty and the left sheet edge (column 1) is
not reached. -/
def scanLeft (g : Grid) (hr : Nat) : Nat → Nat
  | 0 => 0
  | 1 => 1
  | n + 2 => if isFilled g hr (n + 1) then scanLeft g hr (n + 1) else n + 2

/-- The rightward expansion loop: from `curr`, step right while `curr` is
within the sheet and the next header cell is non-empty.  `fuel` bounds the
iteration count (any `fuel > g.maxCol - curr` is exact). -/
def scanRight (g : Grid) (hr : Nat) : Nat → Nat → Nat
  | 0, curr => curr
  | fuel + 1, curr =>
    if curr ≤ g.maxCol ∧ isFilled g hr (curr + 1) then scanRight g hr fuel (curr + 1)
    else curr

/-- `times_tables/excel.py` `detect_table_bounds`. -/
def detect_table_bounds (g : Grid) (tagRow tagCol : Nat) : Option (Nat × Nat) :=
  let headerRow := tagRow + 1
  let startSearch :=
    if isFilled g headerRow tagCol then some tagCol
    else findFirstFilled g headerRow (List.range' (tagCol + 1) (g.maxCol - tagCol))
  match startSearch with
  | none => none
  | some s => some (scanLeft g headerRow s, scanRight g headerRow (g.maxCol + 1) s)

/-- The header cells of the span `[s, e]` of the header row, stripped
(`""` for the never-expected empty cell). -/
def headerSpan (g : Grid) (headerRowIdx s e : Nat) : List String :=
  (List.range' s (e + 1 - s)).map
    (fun c =>
      match g.cell headerRowIdx c with
      | none => ""
      | some v => pyStrip v)

/-- The duplicate-header rename loop of `read_table_range`: every occurrence
of a duplicated name gets `_col<i>` appended (both branches of the `seen`
bookkeeping produce the same name). -/
def renameDupsGo (dupP : String → Bool) : Nat → List String → List String → List String
  | _, _, [] => []
  | i, seen, h :: rest =>
    if dupP h then
      if seen.contains h then (h ++ "_col" ++ toString i) :: renameDupsGo dupP (i + 1) seen rest
      else (h ++ "_col" ++ toString i) :: renameDupsGo dupP (i + 1) (h :: seen) rest
    else h :: renameDupsGo dupP (i + 1) seen rest

/-- The duplicate-header handling of `read_table_range`; the `Bool` records
whether the duplicate-headers warning is logged. -/
def dedupHeaders (headers : List String) : List String × Bool :=
  let dupP := fun h => decide (2 ≤ headers.count h)
  if headers.any dupP then (renameDupsGo dupP 0 [] headers, true)
  else (headers, false)

/-- The data-row loop shared by `read_table_range` and
`_read_table_with_boundaries`: read rows of width `numCols` from column
`startCol`, stopping at the first row whose cells are all `None`, or past
`maxRow`.  `fuel` bounds the iteration count (`g.maxRow + 1` is exact). -/
def readDataRows (g : Grid) (startCol numCols : Nat) :
    Nat → Nat → List (List (Option String))
  | 0, _ => []
  | fuel + 1, rowIdx =>
    if rowIdx ≤ g.maxRow then
      let rowData := (List.range numCols).map (fun off => g.cell rowIdx (startCol + off))
      if rowData.all Option.isNone then []
      else rowData :: readDataRows g startCol numCols fuel (rowIdx + 1)
    else []

/-- `times_tables/excel.py` `read_table_range` (the extraction path used by
`extract.extract_table`): detect bounds, read and dedup headers, read data
rows.  No account is taken of other tags on the tag row. -/
def read_table_range (g : Grid) (startRow startCol : Nat) :
    List String × List (List (Option String)) :=
  match detect_table_bounds g startRow startCol with
  | none => ([], [])
  | some (s, e) =>
    let headers0 := headerSpan g (startRow + 1) s e
    if headers0 = [] then ([], [])
    else
      let headers := (dedupHeaders headers0).1
      (headers, readDataRows g s headers.length (g.maxRow + 1) (startRow + 2))

/-- `times_tables/scanner.py` `_read_table_with_boundaries` (the scan path):
like `read_table_range` but the detected span is clipped to stay strictly
between the nearest other tag columns on the same row, and headers are not
deduplicated. -/
def read_table_with_boundaries (g : Grid) (startRow startCol : Nat)
    (otherTagCols : List Nat) : List String × List (List (Option String)) :=
  match detect_table_bounds g startRow startCol with
  | none => ([], [])
  | some (s0, e0) =>
    let leftTags := otherTagCols.filter (fun c => decide (c < startCol))
    let s := match leftTags.max? with
      | some m => max s0 (m + 1)
      | none => s0
    let rightTags := otherTagCols.filter (fun c => decide (startCol < c))
    let e := match rightTags.min? with
      | some m => min e0 (m - 1)
      | none => e0
    let headers := headerSpan g (startRow + 1) s e
    if headers = [] then ([], [])
    else (headers, readDataRows g s headers.length (g.maxRow + 1) (startRow + 2))

/-! ### `times_tables/index.py` `TablesIndexIO.write` -/

/-- Where the atomic write can fail: nowhere, while writing the temp file, or
while renaming it over the destination. -/
inductive WritePoint
  | ok
  | failWrite
  | failReplace
deriving DecidableEq

/-- The destination directory's observable state: the current content of the
index artifact (if any) and of the in-flight temp file (if any).  The temp
file lives in the destination's own directory (`tempfile.mkstemp(dir=...)`). -/
structure IndexDir where
  dest : Option String
  tmp : Option String
deriving DecidableEq

/-- `tempfile.mkstemp(dir=path.parent, ...)`: an empty temp file appears. -/
def mkstempStep (d : IndexDir) : IndexDir :=
  { d with tmp := some "" }

/-- Writing the serialized JSON into the temp file. -/
def writeTmpStep (json : String) (d : IndexDir) : IndexDir :=
  { d with tmp := some json }

/-- `os.replace(tmp_path, path)`: the temp file atomically becomes the
destination. -/
def replaceStep (d : IndexDir) : IndexDir :=
  { dest := d.tmp, tmp := none }

/-- `os.unlink(tmp_path)` in the exception handler. -/
def unlinkTmpStep (d : IndexDir) : IndexDir :=
  { d with tmp := none }

/-- `times_tables/index.py` `TablesIndexIO.write`: temp file in the same
directory, write, rename over the destination; on a failure the handler
unlinks the temp file and re-raises (the returned `Bool` is true when the
exception propagates). -/
def tablesIndexWrite (json : String) (outcome : WritePoint) (d : IndexDir) :
    IndexDir × Bool :=
  let d1 := mkstempStep d
  match outcome with
  | .ok => (replaceStep (writeTmpStep json d1), false)
  | .failWrite => (unlinkTmpStep d1, true)
  | .failReplace => (unlinkTmpStep (writeTmpStep json d1), true)

/-- A concrete sheet: a tag at (1,1), headers `H1 H2` on row 2 at columns
2-3, one data cell at (3,2). -/
def gridW : Grid :=
  ⟨3, 4, fun r c =>
    if r = 1 ∧ c = 1 then some "~T"
    else if r = 2 ∧ c = 2 then some "H1"
    else if r = 2 ∧ c = 3 then some "H2"
    else if r = 3 ∧ c = 2 then some "a"
    else none⟩

/-- A concrete sheet with two tags side by side on row 1 (columns 1 and 3)
over one contiguous header row `H1 H2 H3 H4` and one data row `a b c d`. -/
def gridAdj : Grid :=
  ⟨3, 4, fun r c =>
    if r = 1 ∧ c = 1 then some "~A"
    else if r = 1 ∧ c = 3 then some "~B"
    else if r = 2 ∧ c = 1 then some "H1"
    else if r = 2 ∧ c = 2 then some "H2"
    else if r = 2 ∧ c = 3 then some "H3"
    else if r = 2 ∧ c = 4 then some "H4"
    else if r = 3 ∧ c = 1 then some "a"
    else if r = 3 ∧ c = 2 then some "b"
    else if r = 3 ∧ c = 3 then some "c"
    else if r = 3 ∧ c = 4 then some "d"
    else none⟩

/-! ## Theorems -/

theorem dropWhile_head_not {p : Char → Bool} :
    ∀ l : List Char, l.dropWhile p = [] ∨
      ∃ a t, l.dropWhile p = a :: t ∧ p a = false := by
  intro l
  induction l with
  | nil => exact Or.inl rfl
  | cons a t ih =>
    by_cases h : p a
    · simpa [List.dropWhile, h] using ih
    · exact Or.inr ⟨a, t, by simp [List.dropWhile, h], by simpa using h⟩

theorem dropWhile_idem {p : Char → Bool} (l : List Char) :
    (l.dropWhile p).dropWhile p = l.dropWhile p := by
  rcases dropWhile_head_not (p := p) l with h | ⟨a, t, h, ha⟩
  · simp [h]
  · simp [h, List.dropWhile, ha]

theorem stripLeftL_idem (l : List Char) : stripLeftL (stripLeftL l) = stripLeftL l :=
  dropWhile_idem l

theorem stripRightL_idem (l : List Char) : stripRightL (stripRightL l) = stripRightL l := by
  unfold stripRightL
  rw [List.reverse_reverse, dropWhile_idem]

/-- After a left strip, the first character (if any) is not whitespace. -/
theorem stripLeftL_head (l : List Char) :
    stripLeftL l = [] ∨
      ∃ a t, stripLeftL l = a :: t ∧ a.isWhitespace = false :=
  dropWhile_head_not l

/-- A right strip removes characters only from the end: the result is an
initial segment of the input. -/
theorem stripRightL_append (l : List Char) :
    stripRightL l ++ (l.reverse.takeWhile Char.isWhitespace).reverse = l := by
  unfold stripRightL
  rw [← List.reverse_append, List.takeWhile_append_dropWhile, List.reverse_reverse]

theorem stripRightL_nil : stripRightL [] = [] := rfl

theorem stripLeft_of_stripped (l : List Char) :
    stripLeftL (pyStripL l) = pyStripL l := by
  unfold pyStripL
  rcases stripLeftL_head l with h | ⟨a, t, h, ha⟩
  · rw [h, stripRightL_nil]
    rfl
  · have happ := stripRightL_append (stripLeftL l)
    rw [h] at happ
    rw [h]
    cases hsr : stripRightL (a :: t) with
    | nil => rfl
    | cons b u =>
      rw [hsr] at happ
      have hb : b = a := (List.cons.injEq _ _ _ _ ▸ happ).1
      rw [hb]
      simp [stripLeftL, List.dropWhile, ha]

theorem pyStripL_idem (l : List Char) : pyStripL (pyStripL l) = pyStripL l := by
  show stripRightL (stripLeftL (pyStripL l)) = pyStripL l
  rw [stripLeft_of_stripped]
  show stripRightL (stripRightL (stripLeftL l)) = pyStripL l
  rw [stripRightL_idem]
  rfl

theorem pyStrip_idem (s : String) : pyStrip (pyStrip s) = pyStrip s := by
  unfold pyStrip
  exact congrArg String.mk (pyStripL_idem s.data)

/-- Every character of `normalize_name`'s output is in `[a-z0-9_]`. -/
theorem normalize_name_chars (s : String) :
    ∀ c ∈ (normalize_name s).data, keptChar c = true := by
  intro c hc
  have hc' : c ∈ ((collapseWs ((pyStripL s.data).map Char.toLower)).map
      (fun c => if c = ' ' then '_' else c)).map (fun c => if keptChar c then c else '_') := hc
  obtain ⟨a, _, ha⟩ := List.mem_map.1 hc'
  by_cases h : keptChar a
  · rw [if_pos h] at ha
    rwa [ha] at h
  · rw [if_neg h] at ha
    rw [← ha]
    rfl

theorem normalizeCell_idem (v : Option String) :
    normalizeCell (normalizeCell v) = normalizeCell v := by
  cases v with
  | none => rfl
  | some s =>
    show normalizeCell (if pyStrip s = "" then none else some (pyStrip s)) = _
    by_cases h : pyStrip s = ""
    · simp [h, normalizeCell]
    · simp only [if_neg h]
      show (if pyStrip (pyStrip s) = "" then none else some (pyStrip (pyStrip s)))
        = (if pyStrip s = "" then none else some (pyStrip s))
      rw [pyStrip_idem]

/-- C9: value normalization is idempotent — re-normalizing an
already-normalized table is a no-op: `normalize(normalize(t)) = normalize(t)`
for every table. -/
theorem claim_c9_normalize_idempotent (df : DataFrame) :
    normalize_values (normalize_values df) = normalize_values df := by
  unfold normalize_values
  congr 1
  rw [List.map_map]
  refine List.map_congr_left ?_
  intro row _
  show (row.map normalizeCell).map normalizeCell = row.map normalizeCell
  rw [List.map_map]
  exact List.map_congr_left fun v _ => normalizeCell_idem v

/-- C3: `generate_table_id` does not read the tag-position argument, so for
fixed workbook, sheet, tag type and logical name the id is the same for all
tag positions — relocating a table on its sheet never changes its id. -/
theorem claim_c3_table_id_position_independent (tag_type : String)
    (logical_name : Option String) (workbook_id sheet_name : String)
    (pos1 pos2 : String) :
    generate_table_id tag_type logical_name workbook_id sheet_name pos1 =
      generate_table_id tag_type logical_name workbook_id sheet_name pos2 := rfl

/-- C7: the index write is atomic — the JSON goes to a temp file in the
destination's directory which is renamed over the destination; on any
failure the previous destination content is unchanged, the temp file is
removed, and the error is re-raised. -/
theorem claim_c7_atomic_index_write (json : String) (outcome : WritePoint)
    (d : IndexDir) :
    (outcome = WritePoint.ok →
      tablesIndexWrite json outcome d = ({ dest := some json, tmp := none }, false))
    ∧ (outcome ≠ WritePoint.ok →
      (tablesIndexWrite json outcome d).1.dest = d.dest
      ∧ (tablesIndexWrite json outcome d).1.tmp = none
      ∧ (tablesIndexWrite json outcome d).2 = true) := by
  cases outcome <;>
    simp [tablesIndexWrite, mkstempStep, writeTmpStep, replaceStep, unlinkTmpStep]

theorem claim_c7_atomic_index_write_witness :
    (WritePoint.failWrite ≠ WritePoint.ok)
    ∧ (tablesIndexWrite "new" WritePoint.failWrite ⟨some "old", none⟩).1.dest
        = (⟨some "old", none⟩ : IndexDir).dest :=
  ⟨by decide,
    ((claim_c7_atomic_index_write "new" WritePoint.failWrite ⟨some "old", none⟩).2
      (by decide)).1⟩

/-- C8 counterexample: the id produced for tag type `"fi_t"`, logical name
`"Base Name"`, workbook `"My WB!"`, sheet `"My Sheet"` is
`"My WB!__my_sheet__FI_T__base_name"`: the tag type is uppercased rather
than lowercased, and the verbatim workbook id (with its space, uppercase
letters and `!`) is part of the id — so the id is not a composition of
three lowercased, underscore-normalized components. -/
theorem claim_c8_counterexample :
    generate_table_id "fi_t" (some "Base Name") "My WB!" "My Sheet" "B5"
      = "My WB!__my_sheet__FI_T__base_name"
    ∧ 'F' ∈ (generate_table_id "fi_t" (some "Base Name") "My WB!" "My Sheet" "B5").data
    ∧ ' ' ∈ (generate_table_id "fi_t" (some "Base Name") "My WB!" "My Sheet" "B5").data
    ∧ ¬ (∀ c ∈ (generate_table_id "fi_t" (some "Base Name") "My WB!" "My Sheet" "B5").data,
          keptChar c = true) := by
  refine ⟨by decide, by decide, by decide, ?_⟩
  intro h
  have := h 'F' (by decide)
  exact absurd this (by decide)

/-- C8 amended: with a (non-empty) logical name the id is
`workbook_id ++ "__" ++ normalize(sheet) ++ "__" ++ upper(tag_type) ++ "__"
++ normalize(logical)`: the sheet name and logical name are independently
normalized (lowercased, whitespace runs collapsed to single underscores,
other characters replaced by underscores — so their normal forms use only
`[a-z0-9_]`), while the tag type is uppercased verbatim and the workbook id
is prefixed verbatim. -/
theorem claim_c8_amended (tag_type l workbook_id sheet_name pos : String)
    (hl : l ≠ "") :
    generate_table_id tag_type (some l) workbook_id sheet_name pos
      = workbook_id ++ "__" ++ normalize_name sheet_name ++ "__" ++ pyUpper tag_type
          ++ "__" ++ normalize_name l
    ∧ (∀ c ∈ (normalize_name sheet_name).data, keptChar c = true)
    ∧ (∀ c ∈ (normalize_name l).data, keptChar c = true) := by
  refine ⟨?_, normalize_name_chars _, normalize_name_chars _⟩
  unfold generate_table_id
  simp [hl]

theorem claim_c8_amended_witness :
    ("Base Name" ≠ "")
    ∧ generate_table_id "fi_t" (some "Base Name") "wb" "My Sheet" "A1"
        = "wb" ++ "__" ++ normalize_name "My Sheet" ++ "__" ++ pyUpper "fi_t"
            ++ "__" ++ normalize_name "Base Name" :=
  ⟨by decide,
    (claim_c8_amended "fi_t" "Base Name" "wb" "My Sheet" "A1" (by decide)).1⟩

theorem strLtL_irrefl : ∀ l : List Char, strLtL l l = false := by
  intro l
  induction l with
  | nil => rfl
  | cons a t ih => simp [strLtL, ih]

theorem strLtL_trans : ∀ a b c : List Char, strLtL a b = true → strLtL b c = true →
    strLtL a c = true := by
  intro a
  induction a with
  | nil =>
    intro b c h1 h2
    cases b with
    | nil => exact h2
    | cons y ys =>
      cases c with
      | nil => simp [strLtL] at h2
      | cons z zs => rfl
  | cons x xs ih =>
    intro b c h1 h2
    cases b with
    | nil => simp [strLtL] at h1
    | cons y ys =>
      cases c with
      | nil => simp [strLtL] at h2
      | cons z zs =>
        simp only [strLtL] at h1 h2 ⊢
        by_cases hxy : x.toNat < y.toNat
        · by_cases hyz : y.toNat < z.toNat
          · rw [if_pos (Nat.lt_trans hxy hyz)]
          · rw [if_neg hyz] at h2
            by_cases hzy : z.toNat < y.toNat
            · rw [if_pos hzy] at h2
              exact absurd h2 (by decide)
            · have hyz2 : y.toNat = z.toNat := Nat.le_antisymm
                (Nat.le_of_not_lt hzy) (Nat.le_of_not_lt hyz)
              rw [if_pos (hyz2 ▸ hxy)]
        · rw [if_neg hxy] at h1
          by_cases hyx : y.toNat < x.toNat
          · rw [if_pos hyx] at h1
            exact absurd h1 (by decide)
          · have hxy2 : x.toNat = y.toNat := Nat.le_antisymm
              (Nat.le_of_not_lt hyx) (Nat.le_of_not_lt hxy)
            rw [if_neg hyx] at h1
            by_cases hyz : y.toNat < z.toNat
            · rw [if_pos (hxy2 ▸ hyz)]
            · rw [if_neg hyz] at h2
              by_cases hzy : z.toNat < y.toNat
              · rw [if_pos hzy] at h2
                exact absurd h2 (by decide)
              · rw [if_neg hzy] at h2
                rw [if_neg (hxy2 ▸ hyz), if_neg (hxy2 ▸ hzy)]
                exact ih ys zs h1 h2

theorem strLtL_connex : ∀ a b : List Char, strLtL a b = false → a ≠ b →
    strLtL b a = true := by
  intro a
  induction a with
  | nil =>
    intro b h1 h2
    cases b with
    | nil => exact absurd rfl h2
    | cons y ys => simp [strLtL] at h1
  | cons x xs ih =>
    intro b h1 h2
    cases b with
    | nil => rfl
    | cons y ys =>
      simp only [strLtL] at h1 ⊢
      by_cases hxy : x.toNat < y.toNat
      · rw [if_pos hxy] at h1
        exact absurd h1 (by decide)
      · rw [if_neg hxy] at h1
        by_cases hyx : y.toNat < x.toNat
        · rw [if_pos hyx]
        · rw [if_neg hyx] at h1
          rw [if_neg hyx]
          have hxy2 : x = y := Char.ext (UInt32.ext (by
            have := Nat.le_antisymm (Nat.le_of_not_lt hyx) (Nat.le_of_not_lt hxy)
            simpa [Char.toNat] using this))
          subst hxy2
          rw [if_neg hxy]
          exact ih ys h1 (fun he => h2 (by rw [he]))

theorem strLt_trans {a b c : String} (h1 : strLt a b = true) (h2 : strLt b c = true) :
    strLt a c = true :=
  strLtL_trans a.data b.data c.data h1 h2

theorem strLt_connex {a b : String} (h1 : strLt a b = false) (h2 : a ≠ b) :
    strLt b a = true :=
  strLtL_connex a.data b.data h1 fun he => h2 (congrArg String.mk he)

theorem cellLt_irrefl (a : Option String) : cellLt a a = false := by
  cases a with
  | none => rfl
  | some s => simpa [cellLt, strLt] using strLtL_irrefl s.data

theorem cellLt_trans {a b c : Option String} (h1 : cellLt a b = true)
    (h2 : cellLt b c = true) : cellLt a c = true := by
  cases a with
  | none => simp [cellLt] at h1
  | some x =>
    cases b with
    | none => simp [cellLt] at h2
    | some y =>
      cases c with
      | none => rfl
      | some z =>
        exact strLt_trans (a := x) (b := y) (c := z) h1 h2

theorem cellLt_connex {a b : Option String} (h1 : cellLt a b = false) (h2 : a ≠ b) :
    cellLt b a = true := by
  cases a with
  | none =>
    cases b with
    | none => exact absurd rfl h2
    | some y => rfl
  | some x =>
    cases b with
    | none => simp [cellLt] at h1
    | some y =>
      exact strLt_connex (a := x) (b := y) h1 fun he => h2 (congrArg some he)

theorem keyLe_refl (a : List (Option String)) : keyLe a a = true := by
  induction a with
  | nil => rfl
  | cons x xs ih => simp [keyLe, ih]

theorem keyLe_total (a b : List (Option String)) :
    keyLe a b = true ∨ keyLe b a = true := by
  induction a generalizing b with
  | nil => exact Or.inl rfl
  | cons x xs ih =>
    cases b with
    | nil => exact Or.inr rfl
    | cons y ys =>
      by_cases hxy : x = y
      · subst hxy
        rcases ih ys with h | h
        · exact Or.inl (by simp [keyLe, h])
        · exact Or.inr (by simp [keyLe, h])
      · by_cases hlt : cellLt x y = true
        · exact Or.inl (by simp [keyLe, hlt])
        · have := cellLt_connex (Bool.eq_false_iff.mpr hlt) hxy
          exact Or.inr (by simp [keyLe, this])

theorem keyLe_trans {a b c : List (Option String)} (h1 : keyLe a b = true)
    (h2 : keyLe b c = true) : keyLe a c = true := by
  induction a generalizing b c with
  | nil => rfl
  | cons x xs ih =>
    cases b with
    | nil => simp [keyLe] at h1
    | cons y ys =>
      cases c with
      | nil => simp [keyLe] at h2
      | cons z zs =>
        simp only [keyLe, Bool.or_eq_true, Bool.and_eq_true, beq_iff_eq] at h1 h2 ⊢
        rcases h1 with h1 | ⟨rfl, h1⟩
        · rcases h2 with h2 | ⟨rfl, h2⟩
          · exact Or.inl (cellLt_trans h1 h2)
          · exact Or.inl h1
        · rcases h2 with h2 | ⟨rfl, h2⟩
          · exact Or.inl h2
          · exact Or.inr ⟨rfl, ih h1 h2⟩

theorem rowLe_total (cols vpks : List String) (r1 r2 : List (Option String)) :
    rowLe cols vpks r1 r2 ∨ rowLe cols vpks r2 r1 :=
  keyLe_total _ _

theorem rowLe_trans (cols vpks : List String) {r1 r2 r3 : List (Option String)}
    (h1 : rowLe cols vpks r1 r2) (h2 : rowLe cols vpks r2 r3) :
    rowLe cols vpks r1 r3 :=
  keyLe_trans h1 h2

/-- Filtering commutes with `orderedInsert` when nothing skipped over by the
insertion can satisfy the filter together with the inserted element. -/
theorem filter_orderedInsert {α : Type} (r : α → α → Prop) [DecidableRel r]
    (p : α → Bool) (a : α) (hp : ∀ b, p a = true → ¬ r a b → p b = false) :
    ∀ l : List α, (List.orderedInsert r a l).filter p =
      if p a then a :: l.filter p else l.filter p := by
  intro l
  induction l with
  | nil =>
    by_cases hpa : p a <;> simp [List.orderedInsert, List.filter, hpa]
  | cons b l ih =>
    by_cases hr : r a b
    · by_cases hpa : p a <;>
        simp [List.orderedInsert, if_pos hr, List.filter_cons, hpa]
    · rw [List.orderedInsert, if_neg hr]
      by_cases hpa : p a
      · have hpb : p b = false := hp b hpa hr
        rw [List.filter_cons_of_neg (by simp [hpb]), ih, if_pos hpa,
          List.filter_cons_of_neg (by simp [hpb]), if_pos hpa]
      · rw [List.filter_cons, ih, if_neg hpa, if_neg hpa, List.filter_cons]

/-- Stability of insertion sort, phrased through filters: the subsequence of
elements satisfying any predicate compatible with the sort relation is
unchanged. -/
theorem filter_insertionSort {α : Type} (r : α → α → Prop) [DecidableRel r]
    (p : α → Bool) (hp : ∀ a b, p a = true → ¬ r a b → p b = false) :
    ∀ l : List α, (List.insertionSort r l).filter p = l.filter p := by
  intro l
  induction l with
  | nil => rfl
  | cons a l ih =>
    rw [List.insertionSort, filter_orderedInsert r p a (hp a), ih]
    by_cases hpa : p a
    · rw [if_pos hpa, List.filter_cons_of_pos hpa]
    · rw [if_neg hpa, List.filter_cons_of_neg (by simp [hpa])]

theorem orderedInsert_of_true {α : Type} (r : α → α → Prop) [DecidableRel r]
    (h : ∀ a b, r a b) (a : α) (l : List α) :
    List.orderedInsert r a l = a :: l := by
  cases l with
  | nil => rfl
  | cons b t => simp [List.orderedInsert, h a b]

theorem insertionSort_of_true {α : Type} (r : α → α → Prop) [DecidableRel r]
    (h : ∀ a b, r a b) : ∀ l : List α, List.insertionSort r l = l := by
  intro l
  induction l with
  | nil => rfl
  | cons a l ih => rw [List.insertionSort, ih, orderedInsert_of_true r h]

theorem zipWith_keep {f : String → Option String → Option String}
    (hf : ∀ c v, f c v = v) :
    ∀ (cols : List String) (row : List (Option String)),
      row.length = cols.length → List.zipWith f cols row = row := by
  intro cols
  induction cols with
  | nil =>
    intro row h
    rw [List.length_nil] at h
    rw [List.eq_nil_of_length_eq_zero h]
    rfl
  | cons c cs ih =>
    intro row h
    cases row with
    | nil => rfl
    | cons v vs =>
      simp only [List.length_cons, Nat.succ.injEq] at h
      simp [List.zipWith, hf, ih vs h]

/-- C2 amended: for a table whose declared primary-key columns are all
present, `sort_by_primary_keys` (i) equals the stable sort of the rows with
`"nan"`/`"<NA>"`-coerced key columns followed by the `fillna("")` pass on key
columns, (ii) produces key tuples that are non-decreasing under the
lexicographic, case-sensitive, nulls-last-per-component order, and (iii) is
stable: the rows carrying any fixed key keep their original relative order. -/
theorem claim_c2_amended_sort (df : DataFrame) (pks : List String)
    (hcov : ∀ pk ∈ pks, df.columns.contains pk = true)
    (hwf : ∀ row ∈ df.rows, row.length = df.columns.length) :
    sort_by_primary_keys df pks
      = ⟨df.columns, (List.insertionSort (rowLe df.columns pks)
          (df.rows.map (transformRow df.columns pks))).map (fillRow df.columns pks)⟩
    ∧ ((List.insertionSort (rowLe df.columns pks)
          (df.rows.map (transformRow df.columns pks))).map (rowKey df.columns pks)).Pairwise
        (fun k1 k2 => keyLe k1 k2 = true)
    ∧ ∀ k, (List.insertionSort (rowLe df.columns pks)
            (df.rows.map (transformRow df.columns pks))).filter
            (fun r => rowKey df.columns pks r == k)
          = (df.rows.map (transformRow df.columns pks)).filter
            (fun r => rowKey df.columns pks r == k) := by
  obtain ⟨cols, rows⟩ := df
  simp only at hcov hwf
  have hfilter : pks.filter (fun pk => cols.contains pk) = pks :=
    List.filter_eq_self.mpr hcov
  refine ⟨?_, ?_, ?_⟩
  · by_cases h1 : rows.isEmpty
    · have hrows := List.isEmpty_iff.mp h1
      subst hrows
      simp [sort_by_primary_keys]
    · by_cases h2 : pks.isEmpty
      · have hpks := List.isEmpty_iff.mp h2
        subst hpks
        have hmapT : rows.map (transformRow cols []) = rows := by
          rw [show rows.map (transformRow cols []) = rows.map id from
            List.map_congr_left fun row hr =>
              zipWith_keep (fun c v => rfl) cols row (hwf row hr)]
          exact List.map_id rows
        have hmapF : ∀ l : List (List (Option String)),
            (∀ row ∈ l, row.length = cols.length) →
            l.map (fillRow cols []) = l := by
          intro l hl
          rw [show l.map (fillRow cols []) = l.map id from
            List.map_congr_left fun row hr =>
              zipWith_keep (fun c v => rfl) cols row (hl row hr)]
          exact List.map_id l
        have hr : ∀ a b : List (Option String), rowLe cols [] a b := fun a b => rfl
        rw [show sort_by_primary_keys ⟨cols, rows⟩ [] = (⟨cols, rows⟩ : DataFrame) by
          simp [sort_by_primary_keys]]
        rw [hmapT, insertionSort_of_true (rowLe cols []) hr, hmapF rows hwf]
      · have h3 : ¬ (pks.filter (fun pk => cols.contains pk)).isEmpty = true := by
          rw [hfilter]
          exact h2
        simp only [sort_by_primary_keys, hfilter]
        rw [if_neg h1, if_neg h2, if_neg h2]
  · haveI : IsTotal (List (Option String)) (rowLe cols pks) := ⟨rowLe_total cols pks⟩
    haveI : IsTrans (List (Option String)) (rowLe cols pks) :=
      ⟨fun a b c => rowLe_trans cols pks⟩
    rw [List.pairwise_map]
    exact List.sorted_insertionSort (rowLe cols pks) _
  · intro k
    apply filter_insertionSort
    intro a b hpa hnr
    have hka : rowKey cols pks a = k := by simpa using hpa
    rw [beq_eq_false_iff_ne]
    intro hkb
    apply hnr
    show keyLe (rowKey cols pks a) (rowKey cols pks b) = true
    rw [hka, hkb]
    exact keyLe_refl k

theorem claim_c2_amended_sort_witness :
    (∀ pk ∈ (["k"] : List String), (["k"] : List String).contains pk = true)
    ∧ (∀ row ∈ ([[some "b"], [some "a"]] : List (List (Option String))),
        row.length = (["k"] : List String).length)
    ∧ sort_by_primary_keys ⟨["k"], [[some "b"], [some "a"]]⟩ ["k"]
        = ⟨["k"], (List.insertionSort (rowLe ["k"] ["k"])
            ([[some "b"], [some "a"]].map (transformRow ["k"] ["k"]))).map
            (fillRow ["k"] ["k"])⟩ :=
  ⟨by decide, by decide,
    (claim_c2_amended_sort ⟨["k"], [[some "b"], [some "a"]]⟩ ["k"]
      (by decide) (by decide)).1⟩

/-- C2 counterexample: with primary key `"k"` present, the row whose key cell
is the literal string `"nan"` is keyed as missing: it is sorted after
`"zzz"` (although `"nan" < "zzz"` in code-point order) and its key cell is
rewritten to `""`; the output's literal key tuples are not non-decreasing,
refuting the claim as stated. -/
theorem claim_c2_counterexample :
    (sort_by_primary_keys ⟨["k"], [[some "zzz"], [some "nan"]]⟩ ["k"]).rows
      = [[some "zzz"], [some ""]]
    ∧ ¬ (((sort_by_primary_keys ⟨["k"], [[some "zzz"], [some "nan"]]⟩ ["k"]).rows.map
          (rowKeyLiteral ["k"] ["k"])).Pairwise (fun k1 k2 => keyLe k1 k2 = true)) := by
  constructor
  · decide
  · decide

/-- C5 counterexample: with declared key `"z"` absent from the columns
`["a"]`, `sort_by_primary_keys` returns the table unchanged (rows still
unsorted) instead of falling back to sorting by all available columns, and
no warning is recorded. -/
theorem claim_c5_counterexample :
    sort_by_primary_keys ⟨["a"], [[some "b"], [some "a"]]⟩ ["z"]
      = ⟨["a"], [[some "b"], [some "a"]]⟩
    ∧ sort_by_primary_keys ⟨["a"], [[some "b"], [some "a"]]⟩ ["z"]
      ≠ ⟨["a"], (List.insertionSort (rowLe ["a"] ["a"])
          ([[some "b"], [some "a"]].map (transformRow ["a"] ["a"]))).map
          (fillRow ["a"] ["a"])⟩
    ∧ sort_warns ⟨["a"], [[some "b"], [some "a"]]⟩ ["z"] = false := by
  refine ⟨by decide, by decide, by decide⟩

/-- C5 amended: when some declared primary-key column is absent from the
table, the sort never fails hard; it keys on the subset of declared keys
that are present and records the warning, and when no declared key is
present it returns the table unsorted with no warning. -/
theorem claim_c5_amended (df : DataFrame) (pks : List String)
    (hmiss : ∃ pk ∈ pks, df.columns.contains pk = false) :
    (pks.filter (fun pk => df.columns.contains pk) = [] →
      sort_by_primary_keys df pks = df ∧ sort_warns df pks = false)
    ∧ (pks.filter (fun pk => df.columns.contains pk) ≠ [] → df.rows ≠ [] →
      sort_by_primary_keys df pks
        = ⟨df.columns, (List.insertionSort
            (rowLe df.columns (pks.filter (fun pk => df.columns.contains pk)))
            (df.rows.map (transformRow df.columns
              (pks.filter (fun pk => df.columns.contains pk))))).map
            (fillRow df.columns (pks.filter (fun pk => df.columns.contains pk)))⟩
        ∧ sort_warns df pks = true) := by
  obtain ⟨cols, rows⟩ := df
  simp only at hmiss ⊢
  obtain ⟨pk0, hpk0mem, hpk0⟩ := hmiss
  have hpksne : pks ≠ [] := by
    intro h
    subst h
    simp at hpk0mem
  constructor
  · intro hvnil
    have h3 : (pks.filter (fun pk => cols.contains pk)).isEmpty = true := by
      rw [hvnil]
      rfl
    constructor
    · simp only [sort_by_primary_keys, h3, eq_self_iff_true, if_true, ite_self]
    · simp only [sort_warns, h3, eq_self_iff_true, if_true, ite_self]
  · intro hvne hrowsne
    have h1 : rows.isEmpty = false := by
      cases rows with
      | nil => exact absurd rfl hrowsne
      | cons a t => rfl
    have h2 : pks.isEmpty = false := by
      cases pks with
      | nil => exact absurd rfl hpksne
      | cons a t => rfl
    have h3 : (pks.filter (fun pk => cols.contains pk)).isEmpty = false := by
      cases hv : pks.filter (fun pk => cols.contains pk) with
      | nil => exact absurd hv hvne
      | cons a t => rfl
    constructor
    · simp only [sort_by_primary_keys, h1, h2, h3, Bool.false_eq_true, if_false]
    · simp only [sort_warns, h1, h2, h3, Bool.false_eq_true, if_false]
      exact List.any_eq_true.mpr ⟨pk0, hpk0mem, by rw [hpk0]; rfl⟩

theorem claim_c5_amended_witness :
    (∃ pk ∈ (["z", "a"] : List String), (["a"] : List String).contains pk = false)
    ∧ sort_warns ⟨["a"], [[some "b"], [some "a"]]⟩ ["z", "a"] = true :=
  ⟨by decide,
    ((claim_c5_amended ⟨["a"], [[some "b"], [some "a"]]⟩ ["z", "a"]
      (by decide)).2 (by decide) (by decide)).2⟩

theorem strLt_asymm {a b : String} (h : strLt a b = true) : strLt b a = false := by
  cases h2 : strLt b a
  · rfl
  · have h3 := strLt_trans h h2
    have h4 : strLt a a = false := strLtL_irrefl a.data
    rw [h4] at h3
    exact absurd h3 (by decide)

theorem strLeP_total (a b : String) : strLeP a b ∨ strLeP b a := by
  cases h : strLt b a
  · exact Or.inl h
  · exact Or.inr (strLt_asymm h)

theorem strLeP_trans {a b c : String} (h1 : strLeP a b) (h2 : strLeP b c) :
    strLeP a c := by
  unfold strLeP at h1 h2 ⊢
  cases hca : strLt c a
  · rfl
  · exfalso
    by_cases hbc : b = c
    · subst hbc
      rw [hca] at h1
      exact absurd h1 (by decide)
    · have h3 : strLt b c = true := strLt_connex h2 (fun he => hbc he.symm)
      have h4 : strLt b a = true := strLt_trans h3 hca
      rw [h4] at h1
      exact absurd h1 (by decide)

theorem sortStrings_sorted (l : List String) : (sortStrings l).Pairwise strLeP := by
  haveI : IsTotal String strLeP := ⟨strLeP_total⟩
  haveI : IsTrans String strLeP := ⟨fun a b c => strLeP_trans⟩
  exact List.sorted_insertionSort strLeP l

theorem count_filter_if (p : String → Bool) (k : String) :
    ∀ l : List String, (l.filter p).count k = if p k then l.count k else 0 := by
  intro l
  induction l with
  | nil => by_cases hk : p k <;> simp [hk]
  | cons a t ih =>
    by_cases hak : a = k
    · subst hak
      by_cases hpa : p a
      · rw [List.filter_cons_of_pos hpa, List.count_cons_self, List.count_cons_self,
          ih, if_pos hpa, if_pos hpa]
      · rw [List.filter_cons_of_neg (by simp [hpa]), ih, if_neg hpa, if_neg hpa]
    · have hka : k ≠ a := fun h => hak h.symm
      by_cases hpa : p a
      · rw [List.filter_cons_of_pos hpa, List.count_cons_of_ne hka,
          List.count_cons_of_ne hka, ih]
      · rw [List.filter_cons_of_neg (by simp [hpa]), ih, List.count_cons_of_ne hka]

theorem filter_not_length (p : String → Bool) :
    ∀ l : List String,
      (l.filter p).length + (l.filter (fun x => !(p x))).length = l.length := by
  intro l
  induction l with
  | nil => rfl
  | cons a t ih =>
    by_cases hpa : p a
    · rw [List.filter_cons_of_pos hpa, List.filter_cons_of_neg (by simp [hpa])]
      simp only [List.length_cons]
      omega
    · rw [List.filter_cons_of_neg (by simp [hpa]), List.filter_cons_of_pos (by simp [hpa])]
      simp only [List.length_cons]
      omega

theorem count_sortStrings_filter (p : String → Bool) (l : List String) (k : String) :
    (sortStrings (l.filter p)).count k = if p k then l.count k else 0 := by
  unfold sortStrings
  rw [(List.perm_insertionSort strLeP (l.filter p)).count_eq]
  exact count_filter_if p k l

theorem count_filter_sortStrings (p q : String → Bool) (l : List String) (k : String) :
    ((sortStrings (l.filter p)).filter q).count k
      = if q k then (if p k then l.count k else 0) else 0 := by
  rw [count_filter_if q k _]
  rw [count_sortStrings_filter]

/-- C1: the diff classifies every key of `keys(A) ∪ keys(B)` into exactly one
of added/removed/modified/unchanged (and no other key into any);
`added = keys(B) − keys(A)`, `removed = keys(A) − keys(B)`, a common key is
modified exactly when the stored hashes differ; the counts satisfy
added+modified+unchanged = `|keys(B)|` and removed+modified+unchanged =
`|keys(A)|`; and all four output lists are in ascending code-point
lexicographic key order. -/
theorem claim_c1_diff_partition (a b : TablesIndex)
    (ha : (indexKeys a).Nodup) (hb : (indexKeys b).Nodup) :
    (∀ k, (k ∈ indexKeys a ∨ k ∈ indexKeys b) →
      ((compute_diff a b).tables_added ++ (compute_diff a b).tables_removed
        ++ (compute_diff a b).tables_modified.map ModifiedEntry.table_id
        ++ (compute_diff a b).unchanged).count k = 1)
    ∧ (∀ k, ¬ (k ∈ indexKeys a ∨ k ∈ indexKeys b) →
      ((compute_diff a b).tables_added ++ (compute_diff a b).tables_removed
        ++ (compute_diff a b).tables_modified.map ModifiedEntry.table_id
        ++ (compute_diff a b).unchanged).count k = 0)
    ∧ ((compute_diff a b).tables_added.length
        + (compute_diff a b).tables_modified.length
        + (compute_diff a b).unchanged.length = (indexKeys b).length)
    ∧ ((compute_diff a b).tables_removed.length
        + (compute_diff a b).tables_modified.length
        + (compute_diff a b).unchanged.length = (indexKeys a).length)
    ∧ (compute_diff a b).tables_added.Pairwise strLeP
    ∧ (compute_diff a b).tables_removed.Pairwise strLeP
    ∧ ((compute_diff a b).tables_modified.map ModifiedEntry.table_id).Pairwise strLeP
    ∧ (compute_diff a b).unchanged.Pairwise strLeP := by
  have hmodkeys : (compute_diff a b).tables_modified.map ModifiedEntry.table_id
      = (sortStrings ((indexKeys a).filter (fun k2 => (indexKeys b).contains k2))).filter
          (fun k2 => !(lookupHash a k2 == lookupHash b k2)) := by
    show (((sortStrings ((indexKeys a).filter (fun k2 => (indexKeys b).contains k2))).filter
        (fun k2 => !(lookupHash a k2 == lookupHash b k2))).map
        (fun k2 => (⟨k2, lookupRows a k2, lookupRows b k2, lookupHash a k2,
          lookupHash b k2⟩ : ModifiedEntry))).map ModifiedEntry.table_id = _
    rw [List.map_map]
    exact List.map_id' _
  have hcontains_true : ∀ (l : List String) (k : String), k ∈ l → l.contains k = true :=
    fun l k hk => List.elem_iff.mpr hk
  have hcontains_false : ∀ (l : List String) (k : String), k ∉ l → l.contains k = false := by
    intro l k hk
    cases h : l.contains k
    · rfl
    · exact absurd (List.elem_iff.mp h) hk
  refine ⟨?_, ?_, ?_, ?_, ?_, ?_, ?_, ?_⟩
  · intro k hk
    have e1 : (compute_diff a b).tables_added.count k
        = if !(indexKeys a).contains k then (indexKeys b).count k else 0 :=
      count_sortStrings_filter _ _ _
    have e2 : (compute_diff a b).tables_removed.count k
        = if !(indexKeys b).contains k then (indexKeys a).count k else 0 :=
      count_sortStrings_filter _ _ _
    have e3 : ((compute_diff a b).tables_modified.map ModifiedEntry.table_id).count k
        = if !(lookupHash a k == lookupHash b k) then
            (if (indexKeys b).contains k then (indexKeys a).count k else 0) else 0 := by
      rw [hmodkeys]
      exact count_filter_sortStrings _ _ _ _
    have e4 : (compute_diff a b).unchanged.count k
        = if (lookupHash a k == lookupHash b k) then
            (if (indexKeys b).contains k then (indexKeys a).count k else 0) else 0 :=
      count_filter_sortStrings _ _ _ _
    rw [List.count_append, List.count_append, List.count_append, e1, e2, e3, e4]
    by_cases hA : k ∈ indexKeys a <;> by_cases hB : k ∈ indexKeys b
    · rw [hcontains_true _ _ hA, hcontains_true _ _ hB,
        List.count_eq_one_of_mem ha hA]
      cases hq : (lookupHash a k == lookupHash b k) <;> simp
    · rw [hcontains_true _ _ hA, hcontains_false _ _ hB,
        List.count_eq_one_of_mem ha hA]
      simp
    · rw [hcontains_false _ _ hA, hcontains_true _ _ hB,
        List.count_eq_one_of_mem hb hB, List.count_eq_zero.mpr hA]
      cases hq : (lookupHash a k == lookupHash b k) <;> simp
    · rcases hk with h | h
      · exact absurd h hA
      · exact absurd h hB
  · intro k hk
    push_neg at hk
    obtain ⟨hA, hB⟩ := hk
    have e1 : (compute_diff a b).tables_added.count k
        = if !(indexKeys a).contains k then (indexKeys b).count k else 0 :=
      count_sortStrings_filter _ _ _
    have e2 : (compute_diff a b).tables_removed.count k
        = if !(indexKeys b).contains k then (indexKeys a).count k else 0 :=
      count_sortStrings_filter _ _ _
    have e3 : ((compute_diff a b).tables_modified.map ModifiedEntry.table_id).count k
        = if !(lookupHash a k == lookupHash b k) then
            (if (indexKeys b).contains k then (indexKeys a).count k else 0) else 0 := by
      rw [hmodkeys]
      exact count_filter_sortStrings _ _ _ _
    have e4 : (compute_diff a b).unchanged.count k
        = if (lookupHash a k == lookupHash b k) then
            (if (indexKeys b).contains k then (indexKeys a).count k else 0) else 0 :=
      count_filter_sortStrings _ _ _ _
    rw [List.count_append, List.count_append, List.count_append, e1, e2, e3, e4]
    rw [hcontains_false _ _ hA, hcontains_false _ _ hB,
      List.count_eq_zero.mpr hA, List.count_eq_zero.mpr hB]
    cases hq : (lookupHash a k == lookupHash b k) <;> simp
  · have lad : (compute_diff a b).tables_added.length
        = ((indexKeys b).filter (fun k2 => !(indexKeys a).contains k2)).length :=
      (List.perm_insertionSort strLeP _).length_eq
    have lmod : (compute_diff a b).tables_modified.length
        = ((sortStrings ((indexKeys a).filter (fun k2 => (indexKeys b).contains k2))).filter
            (fun k2 => !(lookupHash a k2 == lookupHash b k2))).length :=
      List.length_map _ _
    have lsort : (sortStrings ((indexKeys a).filter
        (fun k2 => (indexKeys b).contains k2))).length
        = ((indexKeys a).filter (fun k2 => (indexKeys b).contains k2)).length :=
      (List.perm_insertionSort strLeP _).length_eq
    have lsplit := filter_not_length
      (fun k2 => lookupHash a k2 == lookupHash b k2)
      (sortStrings ((indexKeys a).filter (fun k2 => (indexKeys b).contains k2)))
    have hperm : List.Perm
        ((indexKeys a).filter (fun k2 => (indexKeys b).contains k2))
        ((indexKeys b).filter (fun k2 => (indexKeys a).contains k2)) := by
      refine (List.perm_ext_iff_of_nodup (ha.filter _) (hb.filter _)).mpr ?_
      intro x
      simp only [List.mem_filter]
      constructor
      · rintro ⟨h1, h2⟩
        exact ⟨List.elem_iff.mp h2, hcontains_true _ _ h1⟩
      · rintro ⟨h1, h2⟩
        exact ⟨List.elem_iff.mp h2, hcontains_true _ _ h1⟩
    have hlenAB := hperm.length_eq
    have lsplitB := filter_not_length (fun k2 => (indexKeys a).contains k2) (indexKeys b)
    have hunch : (compute_diff a b).unchanged.length
        = ((sortStrings ((indexKeys a).filter (fun k2 => (indexKeys b).contains k2))).filter
            (fun k2 => lookupHash a k2 == lookupHash b k2)).length := rfl
    rw [lad, lmod, hunch]
    omega
  · have lrem : (compute_diff a b).tables_removed.length
        = ((indexKeys a).filter (fun k2 => !(indexKeys b).contains k2)).length :=
      (List.perm_insertionSort strLeP _).length_eq
    have lmod : (compute_diff a b).tables_modified.length
        = ((sortStrings ((indexKeys a).filter (fun k2 => (indexKeys b).contains k2))).filter
            (fun k2 => !(lookupHash a k2 == lookupHash b k2))).length :=
      List.length_map _ _
    have lsort : (sortStrings ((indexKeys a).filter
        (fun k2 => (indexKeys b).contains k2))).length
        = ((indexKeys a).filter (fun k2 => (indexKeys b).contains k2)).length :=
      (List.perm_insertionSort strLeP _).length_eq
    have lsplit := filter_not_length
      (fun k2 => lookupHash a k2 == lookupHash b k2)
      (sortStrings ((indexKeys a).filter (fun k2 => (indexKeys b).contains k2)))
    have lsplitA := filter_not_length (fun k2 => (indexKeys b).contains k2) (indexKeys a)
    have hunch : (compute_diff a b).unchanged.length
        = ((sortStrings ((indexKeys a).filter (fun k2 => (indexKeys b).contains k2))).filter
            (fun k2 => lookupHash a k2 == lookupHash b k2)).length := rfl
    rw [lrem, lmod, hunch]
    omega
  · exact sortStrings_sorted _
  · exact sortStrings_sorted _
  · rw [hmodkeys]
    exact List.Pairwise.filter _ (sortStrings_sorted _)
  · exact List.Pairwise.filter _ (sortStrings_sorted _)

theorem claim_c1_diff_partition_witness :
    (indexKeys ⟨[("x", ⟨1, "1"⟩), ("y", ⟨1, "2"⟩), ("z", ⟨1, "3"⟩)]⟩).Nodup
    ∧ (indexKeys ⟨[("y", ⟨1, "2"⟩), ("z", ⟨1, "9"⟩), ("w", ⟨1, "4"⟩)]⟩).Nodup
    ∧ ((compute_diff ⟨[("x", ⟨1, "1"⟩), ("y", ⟨1, "2"⟩), ("z", ⟨1, "3"⟩)]⟩
          ⟨[("y", ⟨1, "2"⟩), ("z", ⟨1, "9"⟩), ("w", ⟨1, "4"⟩)]⟩).tables_added
        ++ (compute_diff ⟨[("x", ⟨1, "1"⟩), ("y", ⟨1, "2"⟩), ("z", ⟨1, "3"⟩)]⟩
          ⟨[("y", ⟨1, "2"⟩), ("z", ⟨1, "9"⟩), ("w", ⟨1, "4"⟩)]⟩).tables_removed
        ++ (compute_diff ⟨[("x", ⟨1, "1"⟩), ("y", ⟨1, "2"⟩), ("z", ⟨1, "3"⟩)]⟩
          ⟨[("y", ⟨1, "2"⟩), ("z", ⟨1, "9"⟩), ("w", ⟨1, "4"⟩)]⟩).tables_modified.map
          ModifiedEntry.table_id
        ++ (compute_diff ⟨[("x", ⟨1, "1"⟩), ("y", ⟨1, "2"⟩), ("z", ⟨1, "3"⟩)]⟩
          ⟨[("y", ⟨1, "2"⟩), ("z", ⟨1, "9"⟩), ("w", ⟨1, "4"⟩)]⟩).unchanged).count "z" = 1 :=
  ⟨by decide, by decide,
    (claim_c1_diff_partition
      ⟨[("x", ⟨1, "1"⟩), ("y", ⟨1, "2"⟩), ("z", ⟨1, "3"⟩)]⟩
      ⟨[("y", ⟨1, "2"⟩), ("z", ⟨1, "9"⟩), ("w", ⟨1, "4"⟩)]⟩
      (by decide) (by decide)).1 "z" (Or.inl (by decide))⟩

theorem renameDupsGo_cons (dupP : String → Bool) (i : Nat) (seen : List String)
    (h : String) (t : List String) :
    renameDupsGo dupP i seen (h :: t)
      = if dupP h then
          (h ++ "_col" ++ toString i) :: renameDupsGo dupP (i + 1)
            (if seen.contains h then seen else h :: seen) t
        else h :: renameDupsGo dupP (i + 1) seen t := by
  show (if dupP h then
      (if seen.contains h then
        (h ++ "_col" ++ toString i) :: renameDupsGo dupP (i + 1) seen t
      else (h ++ "_col" ++ toString i) :: renameDupsGo dupP (i + 1) (h :: seen) t)
    else h :: renameDupsGo dupP (i + 1) seen t) = _
  by_cases hd : dupP h
  · rw [if_pos hd, if_pos hd]
    by_cases hs : seen.contains h
    · rw [if_pos hs, if_pos hs]
    · rw [if_neg hs, if_neg hs]
  · rw [if_neg hd, if_neg hd]

theorem renameDupsGo_length (dupP : String → Bool) :
    ∀ (hs : List String) (i : Nat) (seen : List String),
      (renameDupsGo dupP i seen hs).length = hs.length := by
  intro hs
  induction hs with
  | nil => intro i seen; rfl
  | cons h t ih =>
    intro i seen
    rw [renameDupsGo_cons]
    by_cases hd : dupP h
    · rw [if_pos hd, List.length_cons, ih, List.length_cons]
    · rw [if_neg hd, List.length_cons, ih, List.length_cons]

theorem renameDupsGo_getD (dupP : String → Bool) :
    ∀ (hs : List String) (i : Nat) (seen : List String) (j : Nat), j < hs.length →
      (renameDupsGo dupP i seen hs).getD j ""
        = if dupP (hs.getD j "") then hs.getD j "" ++ "_col" ++ toString (i + j)
          else hs.getD j "" := by
  intro hs
  induction hs with
  | nil =>
    intro i seen j hj
    exact absurd hj (by simp)
  | cons h t ih =>
    intro i seen j hj
    rw [renameDupsGo_cons]
    cases j with
    | zero =>
      by_cases hd : dupP h
      · rw [if_pos hd, List.getD_cons_zero, List.getD_cons_zero, if_pos hd, Nat.add_zero]
      · rw [if_neg hd, List.getD_cons_zero, List.getD_cons_zero, if_neg hd]
    | succ j =>
      have hj' : j < t.length := by simpa using hj
      have harith : i + 1 + j = i + (j + 1) := by omega
      by_cases hd : dupP h
      · rw [if_pos hd, List.getD_cons_succ, List.getD_cons_succ,
          ih (i + 1) _ j hj', harith]
      · rw [if_neg hd, List.getD_cons_succ, List.getD_cons_succ,
          ih (i + 1) seen j hj', harith]

/-- C6: duplicate header handling never drops a column (output length equals
input length), renames every occurrence of a duplicated name — including the
first — by appending its zero-based column offset within the span, records
the warning exactly when a duplicate exists, and in particular maps
`["Region","Region","Value"]` to `["Region_col0","Region_col1","Value"]`. -/
theorem claim_c6_duplicate_headers (headers : List String) :
    ((dedupHeaders headers).1.length = headers.length)
    ∧ (∀ j, j < headers.length →
        (dedupHeaders headers).1.getD j ""
          = if 2 ≤ headers.count (headers.getD j "") then
              headers.getD j "" ++ "_col" ++ toString j
            else headers.getD j "")
    ∧ ((dedupHeaders headers).2 = true ↔ ∃ h ∈ headers, 2 ≤ headers.count h)
    ∧ dedupHeaders ["Region", "Region", "Value"]
        = (["Region_col0", "Region_col1", "Value"], true) := by
  refine ⟨?_, ?_, ?_, by decide⟩
  · unfold dedupHeaders
    by_cases hany : headers.any (fun h => decide (2 ≤ headers.count h))
    · simp only [hany, if_true]
      exact renameDupsGo_length _ headers 0 []
    · simp [hany]
  · intro j hj
    unfold dedupHeaders
    by_cases hany : headers.any (fun h => decide (2 ≤ headers.count h))
    · simp only [hany, if_true]
      rw [renameDupsGo_getD _ headers 0 [] j hj]
      rw [Nat.zero_add]
      by_cases hc : 2 ≤ headers.count (headers.getD j "") <;> simp [hc]
    · have hall : ∀ h ∈ headers, ¬ 2 ≤ headers.count h := by
        intro h hh hc
        exact hany (List.any_eq_true.mpr ⟨h, hh, by simpa using hc⟩)
      have hmem : headers.getD j "" ∈ headers := by
        rw [List.getD_eq_getElem headers "" hj]
        exact List.getElem_mem hj
      simp only [hany, Bool.false_eq_true, if_false]
      rw [if_neg (hall _ hmem)]
  · unfold dedupHeaders
    by_cases hany : headers.any (fun h => decide (2 ≤ headers.count h))
    · simp only [hany, if_true]
      constructor
      · intro _
        obtain ⟨h, hh, hp⟩ := List.any_eq_true.mp hany
        exact ⟨h, hh, of_decide_eq_true hp⟩
      · intro _
        trivial
    · simp only [hany, Bool.false_eq_true, if_false]
      constructor
      · intro h
        exact absurd h (by decide)
      · rintro ⟨h, hh, hc⟩
        exact absurd (List.any_eq_true.mpr ⟨h, hh, by simpa using hc⟩) hany

theorem claim_c6_duplicate_headers_witness :
    (1 < (["Region", "Region", "Value"] : List String).length)
    ∧ (dedupHeaders ["Region", "Region", "Value"]).1.getD 1 ""
        = if 2 ≤ (["Region", "Region", "Value"] : List String).count
              ((["Region", "Region", "Value"] : List String).getD 1 "") then
            (["Region", "Region", "Value"] : List String).getD 1 "" ++ "_col" ++ toString 1
          else (["Region", "Region", "Value"] : List String).getD 1 "" :=
  ⟨by decide, (claim_c6_duplicate_headers ["Region", "Region", "Value"]).2.1 1 (by decide)⟩

theorem isFilled_le_max (g : Grid) (hOOB : ∀ r c, g.maxCol < c → g.cell r c = none)
    {r c : Nat} (h : isFilled g r c = true) : c ≤ g.maxCol := by
  by_contra hc
  push_neg at hc
  have hnone := hOOB r c hc
  unfold isFilled at h
  rw [hnone] at h
  exact absurd h (by decide)

theorem scanLeft_le (g : Grid) (hr : Nat) : ∀ s, scanLeft g hr s ≤ s := by
  intro s
  induction s using Nat.strong_induction_on with
  | _ s ih =>
    cases s with
    | zero => exact Nat.le_refl 0
    | succ m =>
      cases m with
      | zero => exact Nat.le_refl 1
      | succ n =>
        show (if isFilled g hr (n + 1) then scanLeft g hr (n + 1) else n + 2) ≤ n + 2
        by_cases hf : isFilled g hr (n + 1) = true
        · rw [if_pos hf]
          exact Nat.le_trans (ih (n + 1) (by omega)) (by omega)
        · rw [if_neg hf]

theorem scanLeft_pos (g : Grid) (hr : Nat) : ∀ s, 1 ≤ s → 1 ≤ scanLeft g hr s := by
  intro s
  induction s using Nat.strong_induction_on with
  | _ s ih =>
    cases s with
    | zero => intro h; exact absurd h (by decide)
    | succ m =>
      cases m with
      | zero => intro _; exact Nat.le_refl 1
      | succ n =>
        intro _
        show 1 ≤ (if isFilled g hr (n + 1) then scanLeft g hr (n + 1) else n + 2)
        by_cases hf : isFilled g hr (n + 1) = true
        · rw [if_pos hf]
          exact ih (n + 1) (by omega) (by omega)
        · rw [if_neg hf]
          omega

theorem scanLeft_filled (g : Grid) (hr : Nat) :
    ∀ s, isFilled g hr s = true →
      ∀ c, scanLeft g hr s ≤ c → c ≤ s → isFilled g hr c = true := by
  intro s
  induction s using Nat.strong_induction_on with
  | _ s ih =>
    cases s with
    | zero =>
      intro hs c h1 h2
      have : c = 0 := Nat.le_antisymm h2 (Nat.zero_le c)
      rwa [this]
    | succ m =>
      cases m with
      | zero =>
        intro hs c h1 h2
        have h1' : scanLeft g hr 1 = 1 := rfl
        rw [h1'] at h1
        have : c = 1 := Nat.le_antisymm h2 h1
        rwa [this]
      | succ n =>
        intro hs c h1 h2
        have hunfold : scanLeft g hr (n + 2)
            = if isFilled g hr (n + 1) then scanLeft g hr (n + 1) else n + 2 := rfl
        by_cases hf : isFilled g hr (n + 1) = true
        · rw [hunfold, if_pos hf] at h1
          by_cases hc : c = n + 2
          · rwa [hc]
          · exact ih (n + 1) (by omega) hf c h1 (by omega)
        · rw [hunfold, if_neg hf] at h1
          have : c = n + 2 := Nat.le_antisymm h2 h1
          rwa [this]

theorem scanRight_ge (g : Grid) (hr : Nat) :
    ∀ fuel curr, curr ≤ scanRight g hr fuel curr := by
  intro fuel
  induction fuel with
  | zero => intro curr; exact Nat.le_refl curr
  | succ fuel ih =>
    intro curr
    show curr ≤ (if curr ≤ g.maxCol ∧ isFilled g hr (curr + 1) = true then
      scanRight g hr fuel (curr + 1) else curr)
    by_cases h : curr ≤ g.maxCol ∧ isFilled g hr (curr + 1) = true
    · rw [if_pos h]
      exact Nat.le_trans (Nat.le_succ curr) (ih (curr + 1))
    · rw [if_neg h]

theorem scanRight_le_max (g : Grid) (hr : Nat)
    (hOOB : ∀ r c, g.maxCol < c → g.cell r c = none) :
    ∀ fuel curr, curr ≤ g.maxCol → scanRight g hr fuel curr ≤ g.maxCol := by
  intro fuel
  induction fuel with
  | zero => intro curr h; exact h
  | succ fuel ih =>
    intro curr h
    show (if curr ≤ g.maxCol ∧ isFilled g hr (curr + 1) = true then
      scanRight g hr fuel (curr + 1) else curr) ≤ g.maxCol
    by_cases hg : curr ≤ g.maxCol ∧ isFilled g hr (curr + 1) = true
    · rw [if_pos hg]
      exact ih (curr + 1) (isFilled_le_max g hOOB hg.2)
    · rw [if_neg hg]
      exact h

theorem scanRight_filled (g : Grid) (hr : Nat) :
    ∀ fuel curr c, curr < c → c ≤ scanRight g hr fuel curr →
      isFilled g hr c = true := by
  intro fuel
  induction fuel with
  | zero =>
    intro curr c h1 h2
    have hz : scanRight g hr 0 curr = curr := rfl
    rw [hz] at h2
    omega
  | succ fuel ih =>
    intro curr c h1
    show c ≤ (if curr ≤ g.maxCol ∧ isFilled g hr (curr + 1) = true then
      scanRight g hr fuel (curr + 1) else curr) → _
    by_cases hg : curr ≤ g.maxCol ∧ isFilled g hr (curr + 1) = true
    · rw [if_pos hg]
      intro h2
      by_cases hc : c = curr + 1
      · rw [hc]
        exact hg.2
      · exact ih (curr + 1) c (by omega) h2
    · rw [if_neg hg]
      intro h2
      omega

theorem findFirstFilled_spec (g : Grid) (hr : Nat) :
    ∀ (cands : List Nat) (c : Nat), findFirstFilled g hr cands = some c →
      c ∈ cands ∧ isFilled g hr c = true := by
  intro cands
  induction cands with
  | nil =>
    intro c h
    exact absurd h (by simp [findFirstFilled])
  | cons x xs ih =>
    intro c h
    by_cases hx : isFilled g hr x = true
    · rw [show findFirstFilled g hr (x :: xs)
          = if isFilled g hr x then some x else findFirstFilled g hr xs from rfl,
        if_pos hx] at h
      obtain rfl : x = c := Option.some.injEq _ _ ▸ h
      exact ⟨List.mem_cons_self x xs, hx⟩
    · rw [show findFirstFilled g hr (x :: xs)
          = if isFilled g hr x then some x else findFirstFilled g hr xs from rfl,
        if_neg hx] at h
      obtain ⟨hm, hf⟩ := ih c h
      exact ⟨List.mem_cons_of_mem x hm, hf⟩

theorem bounds_from_start (g : Grid) (hr : Nat)
    (hOOB : ∀ r c, g.maxCol < c → g.cell r c = none)
    (s0 : Nat) (h1 : 1 ≤ s0) (hfill : isFilled g hr s0 = true) :
    1 ≤ scanLeft g hr s0
    ∧ scanLeft g hr s0 ≤ scanRight g hr (g.maxCol + 1) s0
    ∧ scanRight g hr (g.maxCol + 1) s0 ≤ g.maxCol
    ∧ ∀ c, scanLeft g hr s0 ≤ c → c ≤ scanRight g hr (g.maxCol + 1) s0 →
        isFilled g hr c = true := by
  have hsle : s0 ≤ g.maxCol := isFilled_le_max g hOOB hfill
  refine ⟨scanLeft_pos g hr s0 h1, ?_, scanRight_le_max g hr hOOB _ s0 hsle, ?_⟩
  · exact Nat.le_trans (scanLeft_le g hr s0) (scanRight_ge g hr _ s0)
  · intro c hc1 hc2
    by_cases hc : c ≤ s0
    · exact scanLeft_filled g hr s0 hfill c hc1 hc
    · exact scanRight_filled g hr _ s0 c (by omega) hc2

/-- C10: `detect_table_bounds` returns `none` or a pair `(start_col, end_col)`
with `1 ≤ start_col ≤ end_col ≤ maxCol` such that every header-row cell in
the span is non-empty after stripping. -/
theorem claim_c10_detect_bounds (g : Grid) (tagRow tagCol : Nat)
    (htag : 1 ≤ tagCol)
    (hOOB : ∀ r c, g.maxCol < c → g.cell r c = none) :
    detect_table_bounds g tagRow tagCol = none
    ∨ ∃ s e, detect_table_bounds g tagRow tagCol = some (s, e)
        ∧ 1 ≤ s ∧ s ≤ e ∧ e ≤ g.maxCol
        ∧ ∀ c, s ≤ c → c ≤ e → isFilled g (tagRow + 1) c = true := by
  by_cases hanc : isFilled g (tagRow + 1) tagCol = true
  · right
    obtain ⟨hb1, hb2, hb3, hb4⟩ := bounds_from_start g (tagRow + 1) hOOB tagCol htag hanc
    refine ⟨scanLeft g (tagRow + 1) tagCol,
      scanRight g (tagRow + 1) (g.maxCol + 1) tagCol, ?_, hb1, hb2, hb3, hb4⟩
    show (match (if isFilled g (tagRow + 1) tagCol then some tagCol
        else findFirstFilled g (tagRow + 1)
          (List.range' (tagCol + 1) (g.maxCol - tagCol))) with
      | none => none
      | some s => some (scanLeft g (tagRow + 1) s,
          scanRight g (tagRow + 1) (g.maxCol + 1) s)) = _
    rw [if_pos hanc]
  · cases hf : findFirstFilled g (tagRow + 1)
      (List.range' (tagCol + 1) (g.maxCol - tagCol)) with
    | none =>
      left
      show (match (if isFilled g (tagRow + 1) tagCol then some tagCol
          else findFirstFilled g (tagRow + 1)
            (List.range' (tagCol + 1) (g.maxCol - tagCol))) with
        | none => none
        | some s => some (scanLeft g (tagRow + 1) s,
            scanRight g (tagRow + 1) (g.maxCol + 1) s)) = none
      rw [if_neg hanc, hf]
    | some s0 =>
      right
      obtain ⟨hmem, hfill⟩ := findFirstFilled_spec g (tagRow + 1) _ s0 hf
      have hrange := List.mem_range'_1.mp hmem
      obtain ⟨hb1, hb2, hb3, hb4⟩ := bounds_from_start g (tagRow + 1) hOOB s0
        (by omega) hfill
      refine ⟨scanLeft g (tagRow + 1) s0,
        scanRight g (tagRow + 1) (g.maxCol + 1) s0, ?_, hb1, hb2, hb3, hb4⟩
      show (match (if isFilled g (tagRow + 1) tagCol then some tagCol
          else findFirstFilled g (tagRow + 1)
            (List.range' (tagCol + 1) (g.maxCol - tagCol))) with
        | none => none
        | some s => some (scanLeft g (tagRow + 1) s,
            scanRight g (tagRow + 1) (g.maxCol + 1) s)) = _
      rw [if_neg hanc, hf]

theorem claim_c10_detect_bounds_witness :
    (1 ≤ 1)
    ∧ (detect_table_bounds gridW 1 1 = none
      ∨ ∃ s e, detect_table_bounds gridW 1 1 = some (s, e)
          ∧ 1 ≤ s ∧ s ≤ e ∧ e ≤ gridW.maxCol
          ∧ ∀ c, s ≤ c → c ≤ e → isFilled gridW (1 + 1) c = true) :=
  ⟨by decide,
    claim_c10_detect_bounds gridW 1 1 (by decide) (by
      intro r c hc
      show (if r = 1 ∧ c = 1 then some "~T"
        else if r = 2 ∧ c = 2 then some "H1"
        else if r = 2 ∧ c = 3 then some "H2"
        else if r = 3 ∧ c = 2 then some "a"
        else none) = none
      have hc' : 4 < c := hc
      split_ifs <;> first | rfl | omega)⟩

/-- C4 at the failing input: two tags on row 1 at columns 1 and 3 over a
contiguous header row.  The scan path clips the first table's span to
columns 1-2, but the extraction path (`read_table_range`, used by
`extract_table`) expands across the neighboring tag's column and returns all
four columns — the adjacent-tag override is absent from the extraction
path. -/
theorem claim_c4_adjacent_tag_eval :
    detect_table_bounds gridAdj 1 1 = some (1, 4)
    ∧ read_table_range gridAdj 1 1
        = (["H1", "H2", "H3", "H4"], [[some "a", some "b", some "c", some "d"]])
    ∧ read_table_with_boundaries gridAdj 1 1 [3]
        = (["H1", "H2"], [[some "a", some "b"]]) := by
  refine ⟨by decide, by decide, by decide⟩
